import Mathlib

/-!
Verification of the JWK store library (src/lib/jwk-store.ts).

The library keeps an ordered list of JSON Web Keys (JWKs), hands them out in a
round-robin fashion (optionally pinned by key identifier), and serializes the
whole set while stripping algorithm-specific private fields.

Embedding conventions:
- a JWK (a JavaScript object) is a finite association list of string fields;
  every field value the core ever inspects is a string, so values are strings;
- the mutable key list of the rotator is passed explicitly: every operation
  takes the current list and returns the new list together with its result;
- the external collaborators (the jose key generator and JWK parser, and the
  node crypto random source) are modelled as oracle parameters: their outputs
  are arguments of the store operations;
- thrown exceptions become an Except error value, and the unchanged key list
  is returned alongside the error.
-/

/-- Field map of a JSON Web Key: an ordered list of (field name, value) pairs,
mirroring a JavaScript object. -/
structure JWK where
  fields : List (String × String)
deriving DecidableEq, Repr

/-- Property read j[k]: the value of the first field named k, if any. -/
def JWK.get (j : JWK) (k : String) : Option String :=
  (j.fields.find? (fun p => p.1 == k)).map Prod.snd

/-- Property read jwk.kid (undefined becomes none). -/
def JWK.kid (j : JWK) : Option String := j.get "kid"

/-- Property read jwk.alg (undefined becomes none). -/
def JWK.alg (j : JWK) : Option String := j.get "alg"

/-- Property write j[k] = v: replaces the value in place when the field
exists, otherwise appends the field (JavaScript property-insertion order). -/
def JWK.set (j : JWK) (k v : String) : JWK :=
  if j.fields.any (fun p => p.1 == k) then
    ⟨j.fields.map (fun p => if p.1 == k then (k, v) else p)⟩
  else
    ⟨j.fields ++ [(k, v)]⟩

/-- Hex digit table used by the node Buffer hex encoding. -/
def hexChar (n : Nat) : Char :=
  match n with
  | 0 => '0' | 1 => '1' | 2 => '2' | 3 => '3' | 4 => '4'
  | 5 => '5' | 6 => '6' | 7 => '7' | 8 => '8' | 9 => '9'
  | 10 => 'a' | 11 => 'b' | 12 => 'c' | 13 => 'd' | 14 => 'e'
  | _ => 'f'

/-- Hex encoding of a byte sequence (Buffer.toString of the hex kind): two
lowercase hex digits per byte. -/
def hexEncode (bytes : List Nat) : String :=
  String.mk (bytes.flatMap (fun b => [hexChar (b % 256 / 16), hexChar (b % 16)]))

/-- Source generateRandomKid: randomBytes(40).toString of the hex kind.  The
random source is external, so the 40 random bytes are a parameter. -/
def generateRandomKid (bytes : List Nat) : String :=
  hexEncode bytes

/-- Source removeKey: shallow-copies the object and deletes field k. -/
def removeKey (k : String) (obj : JWK) : JWK :=
  ⟨obj.fields.filter (fun p => p.1 != k)⟩

/-- Source removeKeys: folds removeKey over the listed field names. -/
def removeKeys (keys : List String) (o : JWK) : JWK :=
  keys.foldl (fun r k => removeKey k r) o

/-- Source type JwkTransformer. -/
def JwkTransformer : Type := JWK → JWK

/-- Source RsaPrivateFieldsRemover. -/
def RsaPrivateFieldsRemover : JwkTransformer :=
  fun jwk => removeKeys ["d", "p", "q", "dp", "dq", "qi"] jwk

/-- Source EcdsaPrivateFieldsRemover. -/
def EcdsaPrivateFieldsRemover : JwkTransformer :=
  fun jwk => removeKeys ["d"] jwk

/-- Source EddsaPrivateFieldsRemover. -/
def EddsaPrivateFieldsRemover : JwkTransformer :=
  fun jwk => removeKeys ["d"] jwk

/-- Source privateToPublicTransformerMap, as a lookup from the algorithm name
to its transformer (none when the algorithm is not a key of the map). -/
def privateToPublicTransformerMap (alg : String) : Option JwkTransformer :=
  match alg with
  | "RS256" => some RsaPrivateFieldsRemover
  | "RS384" => some RsaPrivateFieldsRemover
  | "RS512" => some RsaPrivateFieldsRemover
  | "PS256" => some RsaPrivateFieldsRemover
  | "PS384" => some RsaPrivateFieldsRemover
  | "PS512" => some RsaPrivateFieldsRemover
  | "ES256" => some EcdsaPrivateFieldsRemover
  | "ES256K" => some EcdsaPrivateFieldsRemover
  | "ES384" => some EcdsaPrivateFieldsRemover
  | "ES512" => some EcdsaPrivateFieldsRemover
  | "EdDSA" => some EddsaPrivateFieldsRemover
  | _ => none

/-- Source supportedAlgs: the keys of privateToPublicTransformerMap, in
insertion order. -/
def supportedAlgs : List String :=
  ["RS256", "RS384", "RS512", "PS256", "PS384", "PS512",
   "ES256", "ES256K", "ES384", "ES512", "EdDSA"]

/-- Source normalizeKey(jwk, opts): leaves a defined kid alone, otherwise
assigns the kid of opts when given, otherwise the freshly generated random
kid (freshKid stands for the generateRandomKid() call). -/
def normalizeKey (jwk : JWK) (optsKid : Option String) (freshKid : String) : JWK :=
  if jwk.kid ≠ none then jwk
  else
    match optsKid with
    | some k => jwk.set "kid" k
    | none => jwk.set "kid" freshKid

/-- Embedding of Array.prototype.findIndex: index of the first element
satisfying p, and -1 when there is none. -/
def jsFindIndex (p : JWK → Bool) : List JWK → Int
  | [] => -1
  | x :: rest =>
    if p x then 0
    else
      let r := jsFindIndex p rest
      if r < 0 then -1 else r + 1

/-- Source KeyRotator.findNext: -1 on an empty list, index 0 when no kid is
requested, else the index of the first key whose kid matches. -/
def KeyRotator.findNext (keys : List JWK) (kid : Option String) : Int :=
  if keys.isEmpty then -1
  else
    match kid with
    | none => 0
    | some k => jsFindIndex (fun x => x.kid == some k) keys

/-- Source KeyRotator.moveToTheEnd(i): splices the key at index i out and
pushes it at the tail, returning it.  The method is only reached with an
in-range index; the out-of-range branch returns the spliced list unchanged. -/
def KeyRotator.moveToTheEnd (keys : List JWK) (i : Nat) : Option JWK × List JWK :=
  match keys.get? i with
  | some key => (some key, keys.eraseIdx i ++ [key])
  | none => (none, keys.eraseIdx i)

/-- Source KeyRotator.next(kid?): the round-robin / pinned selection.  The
first component is the returned key (undefined becomes none), the second the
key list after the call. -/
def KeyRotator.next (keys : List JWK) (kid : Option String) : Option JWK × List JWK :=
  let i := KeyRotator.findNext keys kid
  if i == -1 then (none, keys)
  else KeyRotator.moveToTheEnd keys i.toNat

/-- Source KeyRotator.add(key): splices out the key found at
findNext(key.kid) when there is one, then pushes the new key at the tail. -/
def KeyRotator.add (keys : List JWK) (key : JWK) : List JWK :=
  let pos := KeyRotator.findNext keys key.kid
  if pos > -1 then keys.eraseIdx pos.toNat ++ [key]
  else keys ++ [key]

/-- Errors thrown by the store.  The external constructor carries an error
raised inside the external jose parser. -/
inductive JwkError where
  | missingAlg
  | unsupportedAlg (alg : String)
  | unspecifiedAlg
  | invalidKeyType
  | external (msg : String)
  | typeError (alg : String)
deriving DecidableEq, Repr

/-- Own property names of Object.prototype in the node runtime.  The
transformer map is a plain object literal, so the JS in-operator, which
consults the prototype chain, also accepts these names, and indexing the map
with one of them yields the inherited member. -/
def objectPrototypeProps : List String :=
  ["constructor", "__defineGetter__", "__defineSetter__", "hasOwnProperty",
   "__lookupGetter__", "__lookupSetter__", "isPrototypeOf",
   "propertyIsEnumerable", "toString", "valueOf", "__proto__",
   "toLocaleString"]

/-- Value pushed on the export output array: normally a JWK object, but when
the cleaner is a member inherited from Object.prototype its call can yield a
plain string instead. -/
inductive ExportVal where
  | jwk (j : JWK)
  | str (s : String)
deriving DecidableEq, Repr

/-- Result of invoking the member that indexing the transformer map with an
inherited Object.prototype name yields, applied to the key the way the
compiled strict-mode module does (a plain call, so the this value is
undefined): the constructor entry is the Object function, and Object(key)
returns key itself; Object.prototype.toString with an undefined this returns
the undefined-tag string; every other inherited member throws a TypeError
(they coerce the undefined this to an object, and the proto entry is the
non-callable Object.prototype itself). -/
def protoCallResult (a : String) (key : JWK) : Except JwkError ExportVal :=
  if a == "constructor" then .ok (.jwk key)
  else if a == "toString" then .ok (.str "[object Undefined]")
  else .error (.typeError a)

/-- Source KeyRotator.toJSON(includePrivateFields): serializes every stored
key in order.  With private fields included each key is shallow-copied as is.
Otherwise the key must carry an alg field (assertIsString, modelled from the
spec: the helpers module is not under src/, and the spec says a record lacking
alg at export-redaction time raises the missing-field error); the source then
tests the alg with the JS in-operator — which accepts the map's own keys and
the names inherited from Object.prototype — and indexes the map: an own key
yields its transformer, while an inherited name yields the inherited member,
whose invocation on the key is protoCallResult. -/
def KeyRotator.toJSON (keys : List JWK) (includePrivateFields : Bool) :
    Except JwkError (List ExportVal) :=
  match keys with
  | [] => .ok []
  | key :: rest =>
    if includePrivateFields then
      (KeyRotator.toJSON rest includePrivateFields).map (fun l => .jwk key :: l)
    else
      match key.alg with
      | none => .error .missingAlg
      | some a =>
        if (privateToPublicTransformerMap a).isSome
            || objectPrototypeProps.contains a then
          match privateToPublicTransformerMap a with
          | some cleaner =>
            (KeyRotator.toJSON rest includePrivateFields).map
              (fun l => .jwk (cleaner key) :: l)
          | none =>
            match protoCallResult a key with
            | .ok v =>
              (KeyRotator.toJSON rest includePrivateFields).map (fun l => v :: l)
            | .error e => .error e
        else .error (.unsupportedAlg a)

deriving instance DecidableEq for Except

/-- Result of the external jose parseJwk call, as far as the store inspects
it: whether the handle is a node KeyObject, and its type tag. -/
structure ParsedKey where
  isKeyObject : Bool
  keyType : String
deriving DecidableEq, Repr

/-- Source JWKStore.add(jwk): shallow-copies the input, normalizes the kid
(no opts, so freshKid stands for the generateRandomKid() call), rejects a
missing alg, rejects an alg outside supportedAlgs, parses the JWK through the
external jose parser (the parsed oracle: an error value when the parser
throws) and rejects a handle that is not a private KeyObject; only then is the
key added to the rotator.  Returns the store result together with the key list
after the call. -/
def JWKStore.add (keys : List JWK) (jwk : JWK) (freshKid : String)
    (parsed : Except String ParsedKey) : Except JwkError JWK × List JWK :=
  let jwkUse := normalizeKey jwk none freshKid
  match jwkUse.alg with
  | none => (.error .unspecifiedAlg, keys)
  | some a =>
    if supportedAlgs.contains a then
      match parsed with
      | .error msg => (.error (.external msg), keys)
      | .ok pk =>
        if pk.isKeyObject && pk.keyType == "private" then
          (.ok jwkUse, KeyRotator.add keys jwkUse)
        else (.error .invalidKeyType, keys)
    else (.error (.unsupportedAlg a), keys)

/-- Source JWKStore.generate(alg, opts): the external generateKeyPair and
fromKeyLike calls are merged into the genResult oracle (none when generation
fails, otherwise the JWK-shaped data of the generated private key; the crv
option only feeds that external call).  On success the code stamps jwk.alg
with the requested alg, normalizes the kid against opts, and adds the key to
the rotator unconditionally. -/
def JWKStore.generate (keys : List JWK) (alg : String) (optsKid : Option String)
    (genResult : Option JWK) (freshKid : String) : Option (JWK × List JWK) :=
  match genResult with
  | none => none
  | some jwk0 =>
    let jwk1 := jwk0.set "alg" alg
    let jwk2 := normalizeKey jwk1 optsKid freshKid
    some (jwk2, KeyRotator.add keys jwk2)

/-- Source JWKStore.get(kid?): delegates to KeyRotator.next. -/
def JWKStore.get (keys : List JWK) (kid : Option String) : Option JWK × List JWK :=
  KeyRotator.next keys kid

/-- Source JWKStore.toJSON(includePrivateFields): delegates to
KeyRotator.toJSON.  The rotator state is read, never written, by the whole
call (every pushed element is a fresh object: a shallow copy or a transformer
output built by removeKey from a shallow copy), so the key list after the
call is returned unchanged alongside the serialization result. -/
def JWKStore.toJSON (keys : List JWK) (includePrivateFields : Bool) :
    Except JwkError (List ExportVal) × List JWK :=
  (KeyRotator.toJSON keys includePrivateFields, keys)

/-- Driver for the round-robin property: performs n unpinned JWKStore.get
calls in a row, collecting the returned keys and the final key list. -/
def runUnpinned : List JWK → Nat → List JWK × List JWK
  | keys, 0 => ([], keys)
  | keys, n + 1 =>
    match JWKStore.get keys none with
    | (some r, keys') =>
      let p := runUnpinned keys' n
      (r :: p.1, p.2)
    | (none, keys') =>
      let p := runUnpinned keys' n
      (p.1, p.2)

/-- Modelled from the spec: the redaction table of section 4.2, giving for
each supported algorithm family the exact field set the spec says export must
remove.  Used only to compare the code's transformers against the spec. -/
def specPrivateFields (alg : String) : List String :=
  match alg with
  | "RS256" | "RS384" | "RS512" | "PS256" | "PS384" | "PS512" =>
    ["d", "p", "q", "dp", "dq", "qi"]
  | "ES256" | "ES256K" | "ES384" | "ES512" => ["d"]
  | "EdDSA" => ["d"]
  | _ => []

/-- A key passes the export-time checks exactly when it carries an alg field
that the JS in-test accepts: an own key of the transformer map or an
Object.prototype-inherited name. -/
def algPassesInCheck (r : JWK) : Bool :=
  match r.alg with
  | none => false
  | some a =>
    (privateToPublicTransformerMap a).isSome || objectPrototypeProps.contains a

/-- Whether a key's alg is one of the Object.prototype-inherited property
names (the names on which the source's in-check and the enumerated supported
set disagree). -/
def algIsProtoName (r : JWK) : Bool :=
  match r.alg with
  | none => false
  | some a => objectPrototypeProps.contains a

example : (KeyRotator.next [⟨[("kid", "a")]⟩, ⟨[("kid", "b")]⟩] none).1
    = some ⟨[("kid", "a")]⟩ := by decide

example : (KeyRotator.next [⟨[("kid", "a")]⟩, ⟨[("kid", "b")]⟩] (some "b")).2
    = [⟨[("kid", "a")]⟩, ⟨[("kid", "b")]⟩] := by decide

example : runUnpinned [⟨[("kid", "a")]⟩, ⟨[("kid", "b")]⟩] 2
    = ([⟨[("kid", "a")]⟩, ⟨[("kid", "b")]⟩], [⟨[("kid", "a")]⟩, ⟨[("kid", "b")]⟩]) := by
  decide

example : KeyRotator.add [⟨[("kid", "a")]⟩, ⟨[("kid", "b")]⟩] ⟨[("kid", "a"), ("x", "1")]⟩
    = [⟨[("kid", "b")]⟩, ⟨[("kid", "a"), ("x", "1")]⟩] := by decide

example : KeyRotator.toJSON [⟨[("alg", "ES256"), ("x", "u"), ("d", "s")]⟩] false
    = .ok [.jwk ⟨[("alg", "ES256"), ("x", "u")]⟩] := by decide

example : KeyRotator.toJSON [⟨[("alg", "constructor"), ("d", "s")]⟩] false
    = .ok [.jwk ⟨[("alg", "constructor"), ("d", "s")]⟩] := by decide

example : (JWKStore.add [] ⟨[("kid", ""), ("alg", "RS256")]⟩ "ff" (.ok ⟨true, "private"⟩)).1
    = .ok ⟨[("kid", ""), ("alg", "RS256")]⟩ := by decide

example : generateRandomKid [0, 255] = "00ff" := by decide

/-! ## Round-robin selection -/

theorem next_cons_none (a : JWK) (t : List JWK) :
    KeyRotator.next (a :: t) none = (some a, t ++ [a]) := by
  simp [KeyRotator.next, KeyRotator.findNext, KeyRotator.moveToTheEnd]

theorem runUnpinned_spec (n : Nat) :
    ∀ keys : List JWK, n ≤ keys.length →
      runUnpinned keys n = (keys.take n, keys.rotate n) := by
  induction n with
  | zero => intro keys _; simp [runUnpinned]
  | succ n ih =>
    intro keys hn
    match keys with
    | [] => simp at hn
    | a :: t =>
      have ht : n ≤ t.length := by
        simpa using Nat.le_of_succ_le_succ hn
      have hlen : n ≤ (t ++ [a]).length := by
        simp; omega
      have := ih (t ++ [a]) hlen
      simp only [runUnpinned, JWKStore.get, next_cons_none, this]
      simp only [Prod.mk.injEq]
      constructor
      · simp [List.take_append_of_le_length ht]
      · rw [List.rotate_cons_succ]

/-- C1: Round-robin selection — for a rotator holding the records of keys in
order, keys.length unpinned JWKStore.get calls return exactly those records in
insertion order, and the key list afterwards equals the original, so the cycle
repeats. -/
theorem roundRobin_cycle (keys : List JWK) :
    runUnpinned keys keys.length = (keys, keys) := by
  have h := runUnpinned_spec keys.length keys le_rfl
  simpa [List.rotate_length] using h

/-! ## Characterizations of findIndex-based operations -/

theorem jsFindIndex_ge (p : JWK → Bool) : ∀ l : List JWK, -1 ≤ jsFindIndex p l := by
  intro l
  induction l with
  | nil => simp [jsFindIndex]
  | cons x rest ih =>
    simp only [jsFindIndex]
    split
    · omega
    · split <;> omega

theorem jsFindIndex_eq_neg_one_iff (p : JWK → Bool) (l : List JWK) :
    jsFindIndex p l = -1 ↔ ∀ x ∈ l, p x = false := by
  induction l with
  | nil => simp [jsFindIndex]
  | cons x rest ih =>
    by_cases hp : p x
    · simp [jsFindIndex, hp]
    · have h1 := jsFindIndex_ge p rest
      by_cases hr : jsFindIndex p rest < 0
      · have hrest : jsFindIndex p rest = -1 := by omega
        have hval : jsFindIndex p (x :: rest) = -1 := by
          simp [jsFindIndex, hp, hr]
        rw [hval]
        refine iff_of_true rfl ?_
        intro y hy
        rcases List.mem_cons.mp hy with h | h
        · subst h; simpa using hp
        · exact ih.mp hrest y h
      · have hval : jsFindIndex p (x :: rest) = jsFindIndex p rest + 1 := by
          simp [jsFindIndex, hp, hr]
        rw [hval]
        refine iff_of_false (by omega) ?_
        intro hall
        have : jsFindIndex p rest = -1 :=
          ih.mpr (fun y hy => hall y (List.mem_cons_of_mem x hy))
        omega

theorem jsFindIndex_nonneg_spec (p : JWK → Bool) :
    ∀ l : List JWK, 0 ≤ jsFindIndex p l →
      l.get? (jsFindIndex p l).toNat = l.find? p ∧
      l.eraseIdx (jsFindIndex p l).toNat = l.eraseP p := by
  intro l
  induction l with
  | nil => intro h; simp [jsFindIndex] at h
  | cons x rest ih =>
    intro h
    by_cases hp : p x
    · simp [jsFindIndex, hp, List.find?_cons_of_pos, List.eraseP_cons_of_pos]
    · have h1 := jsFindIndex_ge p rest
      by_cases hr : jsFindIndex p rest < 0
      · have hval : jsFindIndex p (x :: rest) = -1 := by
          simp [jsFindIndex, hp, hr]
        rw [hval] at h; omega
      · have h0 : 0 ≤ jsFindIndex p rest := by omega
        obtain ⟨n, hn⟩ := Int.eq_ofNat_of_zero_le h0
        have hval : jsFindIndex p (x :: rest) = (n : Int) + 1 := by
          simp [jsFindIndex, hp, hr, hn]
        have hrec := ih h0
        rw [hn] at hrec
        simp only [Int.toNat_ofNat] at hrec
        rw [hval]
        have ht : ((n : Int) + 1).toNat = n + 1 := by omega
        rw [ht]
        simp only [List.get?_cons_succ, List.eraseIdx_cons_succ,
          List.find?_cons_of_neg _ hp, List.eraseP_cons_of_neg hp]
        exact ⟨hrec.1, by rw [hrec.2]⟩

theorem next_pinned_eq (keys : List JWK) (k : String) :
    KeyRotator.next keys (some k) =
      match keys.find? (fun x => x.kid == some k) with
      | none => (none, keys)
      | some r => (some r, keys.eraseP (fun x => x.kid == some k) ++ [r]) := by
  match keys with
  | [] => simp [KeyRotator.next, KeyRotator.findNext]
  | a :: t =>
    simp only [KeyRotator.next, KeyRotator.findNext, List.isEmpty_cons,
      Bool.false_eq_true, if_false]
    by_cases hneg : jsFindIndex (fun x => x.kid == some k) (a :: t) = -1
    · have hall := (jsFindIndex_eq_neg_one_iff _ _).mp hneg
      have hfn : (a :: t).find? (fun x => x.kid == some k) = none :=
        List.find?_eq_none.mpr (fun x hx => by simp [hall x hx])
      simp [hneg, hfn]
    · have hge := jsFindIndex_ge (fun x => x.kid == some k) (a :: t)
      have h0 : 0 ≤ jsFindIndex (fun x => x.kid == some k) (a :: t) := by omega
      obtain ⟨hget, herase⟩ := jsFindIndex_nonneg_spec _ _ h0
      have hne : (jsFindIndex (fun x => x.kid == some k) (a :: t) == -1) = false := by
        simpa using hneg
      rw [hne]
      simp only [Bool.false_eq_true, if_false, KeyRotator.moveToTheEnd, hget, herase]
      cases hf : (a :: t).find? (fun x => x.kid == some k) with
      | none =>
        exfalso
        have hall := List.find?_eq_none.mp hf
        have : jsFindIndex (fun x => x.kid == some k) (a :: t) = -1 :=
          (jsFindIndex_eq_neg_one_iff _ _).mpr
            (fun x hx => by simpa using hall x hx)
        omega
      | some r => rfl


theorem next_pinned_fst (keys : List JWK) (k : String) :
    (KeyRotator.next keys (some k)).1 = keys.find? (fun x => x.kid == some k) := by
  rw [next_pinned_eq]
  cases keys.find? (fun x => x.kid == some k) <;> rfl

theorem find?_kid_eq_some_iff (keys : List JWK) (k : String) (r : JWK)
    (h : (keys.map JWK.kid).Nodup) :
    keys.find? (fun x => x.kid == some k) = some r ↔ r ∈ keys ∧ r.kid = some k := by
  induction keys with
  | nil => simp
  | cons a t ih =>
    rw [List.map_cons, List.nodup_cons] at h
    by_cases hpa : a.kid = some k
    · rw [List.find?_cons_of_pos _ (by simpa using hpa)]
      constructor
      · intro hs
        obtain rfl : a = r := by simpa using hs
        exact ⟨List.mem_cons_self a t, hpa⟩
      · rintro ⟨hm, hk⟩
        rcases List.mem_cons.mp hm with rfl | hmt
        · rfl
        · exfalso
          apply h.1
          rw [hpa, ← hk]
          exact List.mem_map_of_mem JWK.kid hmt
    · rw [List.find?_cons_of_neg _ (by simpa using hpa)]
      rw [ih h.2]
      constructor
      · rintro ⟨hm, hk⟩; exact ⟨List.mem_cons_of_mem a hm, hk⟩
      · rintro ⟨hm, hk⟩
        rcases List.mem_cons.mp hm with rfl | hmt
        · exact absurd hk hpa
        · exact ⟨hmt, hk⟩

theorem perm_cons_eraseP_of_find? (p : JWK → Bool) (l : List JWK) (r : JWK)
    (h : l.find? p = some r) : l.Perm (r :: l.eraseP p) := by
  induction l with
  | nil => simp at h
  | cons a t ih =>
    by_cases hpa : p a
    · rw [List.find?_cons_of_pos _ hpa] at h
      obtain rfl : a = r := by simpa using h
      rw [List.eraseP_cons_of_pos hpa]
    · rw [List.find?_cons_of_neg _ hpa] at h
      rw [List.eraseP_cons_of_neg hpa]
      exact ((ih h).cons a).trans (List.Perm.swap r a _)

theorem next_snd_perm (keys : List JWK) (q : Option String) :
    (KeyRotator.next keys q).2.Perm keys := by
  match q with
  | none =>
    match keys with
    | [] => simp [KeyRotator.next, KeyRotator.findNext]
    | a :: t =>
      rw [next_cons_none]
      exact List.perm_append_singleton a t
  | some k =>
    rw [next_pinned_eq]
    cases hf : keys.find? (fun x => x.kid == some k) with
    | none => rfl
    | some r =>
      refine (List.perm_append_singleton r _).trans ?_
      exact (perm_cons_eraseP_of_find? _ _ _ hf).symm

/-- C8: Pinned lookup — under kid-uniqueness, a pinned JWKStore.get returns
exactly the unique record with the requested kid (none when absent); any
single get call (pinned or unpinned) only permutes the key list, and the
pinned result is unchanged after such an intermediate call, so repeated
pinned lookups never return a different record. -/
theorem pinned_lookup (keys : List JWK) (k : String) (q : Option String)
    (hnd : (keys.map JWK.kid).Nodup) :
    (∀ r : JWK, (JWKStore.get keys (some k)).1 = some r ↔ r ∈ keys ∧ r.kid = some k)
    ∧ (JWKStore.get keys q).2.Perm keys
    ∧ (JWKStore.get ((JWKStore.get keys q).2) (some k)).1
        = (JWKStore.get keys (some k)).1 := by
  have hperm : (KeyRotator.next keys q).2.Perm keys := next_snd_perm keys q
  have hnd' : ((KeyRotator.next keys q).2.map JWK.kid).Nodup :=
    ((hperm.map JWK.kid).nodup_iff).mpr hnd
  refine ⟨?_, hperm, ?_⟩
  · intro r
    rw [JWKStore.get, next_pinned_fst]
    exact find?_kid_eq_some_iff keys k r hnd
  · simp only [JWKStore.get]
    rw [next_pinned_fst, next_pinned_fst]
    cases hf : keys.find? (fun x => x.kid == some k) with
    | none =>
      have hall := List.find?_eq_none.mp hf
      exact List.find?_eq_none.mpr (fun x hx => hall x (hperm.mem_iff.mp hx))
    | some r =>
      have hr := (find?_kid_eq_some_iff keys k r hnd).mp hf
      exact (find?_kid_eq_some_iff _ k r hnd').mpr ⟨hperm.mem_iff.mpr hr.1, hr.2⟩

theorem pinned_lookup_witness :
    (JWKStore.get ((JWKStore.get [⟨[("kid", "a")]⟩, ⟨[("kid", "b")]⟩] none).2) (some "a")).1
      = (JWKStore.get [⟨[("kid", "a")]⟩, ⟨[("kid", "b")]⟩] (some "a")).1 :=
  (pinned_lookup [⟨[("kid", "a")]⟩, ⟨[("kid", "b")]⟩] "a" none (by decide)).2.2

/-! ## Replace on duplicate kid -/

theorem eraseP_kid_eq_filter (keys : List JWK) (k : String)
    (h : (keys.map JWK.kid).Nodup) :
    keys.eraseP (fun x => x.kid == some k) = keys.filter (fun x => x.kid != some k) := by
  induction keys with
  | nil => rfl
  | cons a t ih =>
    rw [List.map_cons, List.nodup_cons] at h
    by_cases hpa : a.kid = some k
    · rw [List.eraseP_cons_of_pos (by simpa using hpa)]
      rw [List.filter_cons_of_neg (by simpa using hpa)]
      refine (List.filter_eq_self.mpr ?_).symm
      intro x hx
      have hxk : x.kid ≠ some k := by
        intro hc
        exact h.1 (hpa ▸ hc ▸ List.mem_map_of_mem JWK.kid hx)
      simpa using hxk
    · rw [List.eraseP_cons_of_neg (by simpa using hpa)]
      rw [List.filter_cons_of_pos (by simpa using hpa)]
      rw [ih h.2]

theorem add_found_eq (keys : List JWK) (key : JWK) (k : String) (r : JWK)
    (hkid : key.kid = some k)
    (hf : keys.find? (fun x => x.kid == some k) = some r) :
    KeyRotator.add keys key = keys.eraseP (fun x => x.kid == some k) ++ [key] := by
  cases keys with
  | nil => simp at hf
  | cons a t =>
    have hnneg : ¬ jsFindIndex (fun x => x.kid == some k) (a :: t) = -1 := by
      intro hc
      have hall := (jsFindIndex_eq_neg_one_iff _ _).mp hc
      have h2 : (a :: t).find? (fun x => x.kid == some k) = none :=
        List.find?_eq_none.mpr (fun x hx => by simp [hall x hx])
      rw [hf] at h2
      cases h2
    have hge := jsFindIndex_ge (fun x => x.kid == some k) (a :: t)
    have h0 : 0 ≤ jsFindIndex (fun x => x.kid == some k) (a :: t) := by omega
    obtain ⟨hget, herase⟩ := jsFindIndex_nonneg_spec _ _ h0
    simp only [KeyRotator.add, KeyRotator.findNext, hkid, List.isEmpty_cons,
      Bool.false_eq_true, if_false]
    rw [if_pos (by omega)]
    rw [herase]

/-- C2: Replace-on-duplicate — with unique kids, adding a record whose kid
matches an existing record removes the old one and appends the new one at the
tail: the result is exactly the other records in their original order
followed by the new record, and the only record with that kid afterwards is
the newly added one. -/
theorem replace_on_duplicate (keys : List JWK) (key : JWK) (k : String)
    (hnd : (keys.map JWK.kid).Nodup) (hkid : key.kid = some k)
    (hex : ∃ r ∈ keys, r.kid = some k) :
    KeyRotator.add keys key = keys.filter (fun r => r.kid != some k) ++ [key]
    ∧ (KeyRotator.add keys key).filter (fun r => r.kid == some k) = [key] := by
  obtain ⟨r, hmem, hk⟩ := hex
  have hf : keys.find? (fun x => x.kid == some k) = some r :=
    (find?_kid_eq_some_iff keys k r hnd).mpr ⟨hmem, hk⟩
  have h1 : KeyRotator.add keys key = keys.filter (fun x => x.kid != some k) ++ [key] := by
    rw [add_found_eq keys key k r hkid hf, eraseP_kid_eq_filter keys k hnd]
  refine ⟨h1, ?_⟩
  rw [h1, List.filter_append]
  have h2 : (keys.filter (fun x => x.kid != some k)).filter (fun x => x.kid == some k)
      = [] := by
    rw [List.filter_filter]
    refine List.filter_eq_nil_iff.mpr ?_
    intro a _
    cases hc : a.kid == some k <;> simp [hc, bne]
  rw [h2]
  simp [List.filter, hkid]

theorem replace_on_duplicate_witness :
    (KeyRotator.add [⟨[("kid", "a"), ("x", "old")]⟩, ⟨[("kid", "b")]⟩]
        ⟨[("kid", "a"), ("x", "new")]⟩).filter (fun r => r.kid == some "a")
      = [⟨[("kid", "a"), ("x", "new")]⟩] :=
  (replace_on_duplicate [⟨[("kid", "a"), ("x", "old")]⟩, ⟨[("kid", "b")]⟩]
    ⟨[("kid", "a"), ("x", "new")]⟩ "a" (by decide) (by decide) (by decide)).2

/-! ## Redaction -/

theorem get_removeKey (s : String) (o : JWK) (k : String) :
    (removeKey s o).get k = if k = s then none else o.get k := by
  obtain ⟨l⟩ := o
  simp only [removeKey, JWK.get]
  induction l with
  | nil => simp
  | cons hd tl ih =>
    by_cases hhd : hd.1 = s
    · rw [List.filter_cons_of_neg (by simp [hhd])]
      rw [ih]
      by_cases hk : k = s
      · simp [hk]
      · rw [if_neg hk, if_neg hk]
        rw [List.find?_cons_of_neg _ (by simp [hhd]; intro hc; exact hk (hc ▸ hhd ▸ rfl))]
    · rw [List.filter_cons_of_pos (by simpa using hhd)]
      by_cases hm : hd.1 = k
      · have hk : ¬ k = s := fun hc => hhd (hm ▸ hc)
        rw [List.find?_cons_of_pos _ (by simpa using hm),
          List.find?_cons_of_pos _ (by simpa using hm), if_neg hk]
      · rw [List.find?_cons_of_neg _ (by simpa using hm),
          List.find?_cons_of_neg _ (by simpa using hm)]
        exact ih

theorem get_removeKeys (S : List String) (o : JWK) (k : String) :
    (removeKeys S o).get k = if k ∈ S then none else o.get k := by
  induction S generalizing o with
  | nil => simp [removeKeys]
  | cons s S ih =>
    have hstep : removeKeys (s :: S) o = removeKeys S (removeKey s o) := rfl
    rw [hstep, ih]
    by_cases hk : k ∈ S
    · simp [hk]
    · rw [get_removeKey]
      by_cases hks : k = s <;> simp [hk, hks]

/-- C3: Redaction completeness — for a record of any supported algorithm, the
transformer the export path applies removes exactly the private field set the
redaction table gives for that algorithm family and leaves every other field
unchanged, and a single-record export without private fields produces exactly
the transformed record. -/
theorem redaction_exact (a : String) (t : JwkTransformer) (o : JWK) (k : String)
    (ha : o.alg = some a)
    (h : privateToPublicTransformerMap a = some t) :
    KeyRotator.toJSON [o] false = .ok [.jwk (t o)]
    ∧ (t o).get k = if k ∈ specPrivateFields a then none else o.get k := by
  constructor
  · simp [KeyRotator.toJSON, ha, h, Except.map]
  · unfold privateToPublicTransformerMap at h
    split at h
    all_goals try exact Option.noConfusion h
    all_goals
      injection h with ht
      subst ht
      simp only [RsaPrivateFieldsRemover, EcdsaPrivateFieldsRemover,
        EddsaPrivateFieldsRemover]
      rw [get_removeKeys]
      rfl

theorem redaction_exact_witness :
    KeyRotator.toJSON [⟨[("alg", "RS256"), ("n", "m"), ("e", "x"), ("d", "s")]⟩] false
      = .ok [.jwk (RsaPrivateFieldsRemover
          ⟨[("alg", "RS256"), ("n", "m"), ("e", "x"), ("d", "s")]⟩)]
    ∧ (RsaPrivateFieldsRemover ⟨[("alg", "RS256"), ("n", "m"), ("e", "x"), ("d", "s")]⟩).get "n"
      = if "n" ∈ specPrivateFields "RS256" then none
        else JWK.get ⟨[("alg", "RS256"), ("n", "m"), ("e", "x"), ("d", "s")]⟩ "n" :=
  redaction_exact "RS256" RsaPrivateFieldsRemover
    ⟨[("alg", "RS256"), ("n", "m"), ("e", "x"), ("d", "s")]⟩ "n" (by decide) rfl

/-- C4 counterexample: the source's export-time membership test uses the JS
in-operator, which consults the prototype chain — a record whose alg is the
inherited name constructor passes the check although constructor is not in
the redaction map (and not a supported algorithm); indexing the map then
yields the inherited Object function, whose call returns the record itself,
so export without private fields succeeds and the private field d is still
present in the output, with no error raised. -/
theorem export_fail_closed_cex :
    KeyRotator.toJSON [⟨[("alg", "constructor"), ("d", "secret")]⟩] false
      = .ok [.jwk ⟨[("alg", "constructor"), ("d", "secret")]⟩]
    ∧ (privateToPublicTransformerMap "constructor").isNone = true
    ∧ "constructor" ∉ supportedAlgs
    ∧ JWK.get ⟨[("alg", "constructor"), ("d", "secret")]⟩ "d" = some "secret" := by
  refine ⟨rfl, rfl, by decide, rfl⟩

/-- C4 (amended): fail-closed export outside the prototype chain — whenever
the store holds a record whose alg is absent or rejected by the in-check
(neither an own key of the redaction map nor an Object.prototype-inherited
name), exporting without private fields returns an error and no output; and
when no stored record uses an inherited Object.prototype name as its alg,
that error is the missing-alg or the unsupported-alg one.  (For an inherited
name the check passes instead: alg constructor exports the record with its
private fields retained, as the counterexample shows.) -/
theorem export_fail_closed_amended (keys : List JWK)
    (h : ∃ r ∈ keys, algPassesInCheck r = false) :
    (∃ e, KeyRotator.toJSON keys false = .error e)
    ∧ ((∀ r ∈ keys, algIsProtoName r = false) →
        ∃ e, KeyRotator.toJSON keys false = .error e
          ∧ (e = .missingAlg ∨ ∃ a, e = .unsupportedAlg a)) := by
  induction keys with
  | nil => simp at h
  | cons key rest ih =>
    by_cases hk : algPassesInCheck key = false
    · cases halg : key.alg with
      | none =>
        constructor
        · exact ⟨.missingAlg, by simp [KeyRotator.toJSON, halg]⟩
        · intro _
          exact ⟨.missingAlg, by simp [KeyRotator.toJSON, halg], Or.inl rfl⟩
      | some a =>
        have hin : ((privateToPublicTransformerMap a).isSome
            || objectPrototypeProps.contains a) = false := by
          simpa [algPassesInCheck, halg] using hk
        obtain ⟨h1, h2⟩ := Bool.or_eq_false_iff.mp hin
        have h2' : a ∉ objectPrototypeProps := by simpa using h2
        constructor
        · exact ⟨.unsupportedAlg a, by simp [KeyRotator.toJSON, halg, h1, h2, h2']⟩
        · intro _
          exact ⟨.unsupportedAlg a, by simp [KeyRotator.toJSON, halg, h1, h2, h2'],
            Or.inr ⟨a, rfl⟩⟩
    · have hk' : algPassesInCheck key = true := by
        cases hb : algPassesInCheck key
        · exact absurd hb hk
        · rfl
      obtain ⟨r, hr, hbad⟩ := h
      rcases List.mem_cons.mp hr with rfl | hrt
      · exact absurd hbad hk
      · have hrest := ih ⟨r, hrt, hbad⟩
        cases halg : key.alg with
        | none => simp [algPassesInCheck, halg] at hk'
        | some a =>
          have hin : ((privateToPublicTransformerMap a).isSome
              || objectPrototypeProps.contains a) = true := by
            simpa [algPassesInCheck, halg] using hk'
          cases hmap : privateToPublicTransformerMap a with
          | some cleaner =>
            constructor
            · obtain ⟨e0, he0⟩ := hrest.1
              exact ⟨e0, by
                simp [KeyRotator.toJSON, halg, hmap, he0, Except.map]⟩
            · intro hnp
              obtain ⟨e1, he1, hshape⟩ :=
                hrest.2 (fun r' hr' => hnp r' (List.mem_cons_of_mem key hr'))
              exact ⟨e1, by
                simp [KeyRotator.toJSON, halg, hmap, he1, Except.map], hshape⟩
          | none =>
            have hcontains : objectPrototypeProps.contains a = true := by
              simpa [hmap] using hin
            have hmem : a ∈ objectPrototypeProps := by simpa using hcontains
            constructor
            · cases hpc : protoCallResult a key with
              | ok v =>
                obtain ⟨e0, he0⟩ := hrest.1
                exact ⟨e0, by
                  simp [KeyRotator.toJSON, halg, hmap, hcontains, hmem, hpc,
                    he0, Except.map]⟩
              | error e2 =>
                exact ⟨e2, by
                  simp [KeyRotator.toJSON, halg, hmap, hcontains, hmem, hpc]⟩
            · intro hnp
              exfalso
              have hfalse : algIsProtoName key = false :=
                hnp key (List.mem_cons_self key rest)
              simp [algIsProtoName, halg] at hfalse
              exact hfalse hmem

theorem export_fail_closed_amended_witness :
    ∃ e, KeyRotator.toJSON [⟨[("alg", "HS256"), ("k", "s")]⟩] false = .error e
      ∧ (e = .missingAlg ∨ ∃ a, e = .unsupportedAlg a) :=
  (export_fail_closed_amended [⟨[("alg", "HS256"), ("k", "s")]⟩] (by decide)).2
    (by decide)

/-- C10: Export with private fields included performs no validation and never
raises — for every store state, records with a missing or unsupported alg
included, it returns every stored record with all its fields, in the current
rotation order. -/
theorem export_private_total (keys : List JWK) :
    KeyRotator.toJSON keys true = .ok (keys.map ExportVal.jwk) := by
  induction keys with
  | nil => rfl
  | cons key rest ih => simp [KeyRotator.toJSON, ih, Except.map]

theorem toJSON_ok_length (b : Bool) : ∀ (keys : List JWK) (out : List ExportVal),
    KeyRotator.toJSON keys b = .ok out → out.length = keys.length := by
  intro keys
  induction keys with
  | nil =>
    intro out h
    simp [KeyRotator.toJSON] at h
    simp [← h]
  | cons key rest ih =>
    intro out h
    by_cases hb : b = true
    · subst hb
      cases hr : KeyRotator.toJSON rest true with
      | error e => simp [KeyRotator.toJSON, hr, Except.map] at h
      | ok l =>
        simp [KeyRotator.toJSON, hr, Except.map] at h
        simp [← h, ih l hr]
    · have hb' : b = false := by
        cases b
        · rfl
        · exact absurd rfl hb
      subst hb'
      cases halg : key.alg with
      | none => simp [KeyRotator.toJSON, halg] at h
      | some a =>
        cases hin : ((privateToPublicTransformerMap a).isSome
            || objectPrototypeProps.contains a) with
        | false =>
          obtain ⟨h1, h2⟩ := Bool.or_eq_false_iff.mp hin
          have h2' : a ∉ objectPrototypeProps := by simpa using h2
          simp [KeyRotator.toJSON, halg, h1, h2, h2'] at h
        | true =>
          cases hmap : privateToPublicTransformerMap a with
          | some t =>
            cases hr : KeyRotator.toJSON rest false with
            | error e =>
              simp [KeyRotator.toJSON, halg, hmap, hr, Except.map] at h
            | ok l =>
              simp [KeyRotator.toJSON, halg, hmap, hr, Except.map] at h
              simp [← h, ih l hr]
          | none =>
            have hcontains : objectPrototypeProps.contains a = true := by
              simpa [hmap] using hin
            have hmem : a ∈ objectPrototypeProps := by simpa using hcontains
            cases hpc : protoCallResult a key with
            | error e2 =>
              simp [KeyRotator.toJSON, halg, hmap, hcontains, hmem, hpc] at h
            | ok v =>
              cases hr : KeyRotator.toJSON rest false with
              | error e =>
                simp [KeyRotator.toJSON, halg, hmap, hcontains, hmem, hpc, hr,
                  Except.map] at h
              | ok l =>
                simp [KeyRotator.toJSON, halg, hmap, hcontains, hmem, hpc, hr,
                  Except.map] at h
                simp [← h, ih l hr]

/-- C9: Export frame property — a store-level export leaves the rotator's key
list unchanged for both values of the private-fields flag, so exporting
without private fields twice in a row yields identical output; moreover a
successful export has exactly one output record per stored record, in order
(the serialization never reorders the state it reads). -/
theorem export_frame (keys : List JWK) (b : Bool) :
    (JWKStore.toJSON keys b).2 = keys
    ∧ (JWKStore.toJSON ((JWKStore.toJSON keys false).2) false).1
        = (JWKStore.toJSON keys false).1
    ∧ (∀ out, (JWKStore.toJSON keys b).1 = .ok out → out.length = keys.length) := by
  exact ⟨rfl, rfl, fun out h => toJSON_ok_length b keys out h⟩

theorem export_frame_witness :
    (JWKStore.toJSON [⟨[("alg", "EdDSA"), ("x", "u"), ("d", "s")]⟩] false).2
      = [⟨[("alg", "EdDSA"), ("x", "u"), ("d", "s")]⟩] :=
  (export_frame [⟨[("alg", "EdDSA"), ("x", "u"), ("d", "s")]⟩] false).1

/-! ## Field updates and kid normalization -/

theorem get_set_self (j : JWK) (k v : String) : (j.set k v).get k = some v := by
  obtain ⟨l⟩ := j
  simp only [JWK.set, JWK.get]
  by_cases hany : l.any (fun p => p.1 == k)
  · rw [if_pos hany]
    induction l with
    | nil => simp at hany
    | cons hd tl ih =>
      by_cases hdk : hd.1 = k
      · rw [List.map_cons, if_pos (by simpa using hdk)]
        rw [List.find?_cons_of_pos _ (by simp)]
        rfl
      · rw [List.map_cons, if_neg (by simpa using hdk)]
        rw [List.find?_cons_of_neg _ (by simpa using hdk)]
        rw [List.any_cons] at hany
        have : tl.any (fun p => p.1 == k) = true := by
          cases h1 : (hd.1 == k)
          · simpa [h1] using hany
          · exact absurd (by simpa using h1) hdk
        exact ih this
  · rw [if_neg hany]
    rw [List.find?_append]
    have hfalse : l.any (fun p => p.1 == k) = false := by
      cases hb : l.any (fun p => p.1 == k)
      · rfl
      · exact absurd hb hany
    have hnone : l.find? (fun p => p.1 == k) = none := by
      refine List.find?_eq_none.mpr ?_
      intro x hx
      have := List.any_eq_false.mp hfalse x hx
      simpa using this
    rw [hnone]
    simp [List.find?]

theorem get_set_ne (j : JWK) (k v k' : String) (h : k' ≠ k) :
    (j.set k v).get k' = j.get k' := by
  obtain ⟨l⟩ := j
  simp only [JWK.set, JWK.get]
  by_cases hany : l.any (fun p => p.1 == k)
  · rw [if_pos hany]
    clear hany
    induction l with
    | nil => rfl
    | cons hd tl ih =>
      rw [List.map_cons]
      by_cases hdk : hd.1 = k
      · rw [if_pos (by simpa using hdk)]
        rw [List.find?_cons_of_neg _ (by
          simp only [beq_iff_eq]
          intro hc
          exact h hc.symm)]
        rw [List.find?_cons_of_neg _ (by
          simp only [beq_iff_eq]
          intro hc
          exact h (by rw [← hc, hdk]))]
        exact ih
      · rw [if_neg (by simpa using hdk)]
        by_cases hm : hd.1 = k'
        · rw [List.find?_cons_of_pos _ (by simpa using hm),
            List.find?_cons_of_pos _ (by simpa using hm)]
        · rw [List.find?_cons_of_neg _ (by simpa using hm),
            List.find?_cons_of_neg _ (by simpa using hm)]
          exact ih
  · rw [if_neg hany]
    rw [List.find?_append]
    have hlast : List.find? (fun p => p.1 == k') [(k, v)] = none := by
      simp only [List.find?]
      rw [show (((k, v).1 == k')) = false from by
        simp only [beq_eq_false_iff_ne]
        exact fun hc => h hc.symm]
    rw [hlast]
    cases List.find? (fun p => p.1 == k') l <;> rfl

theorem normalizeKey_alg (jwk : JWK) (optsKid : Option String) (fresh : String) :
    (normalizeKey jwk optsKid fresh).alg = jwk.alg := by
  unfold normalizeKey
  split
  · rfl
  · cases optsKid with
    | some k => exact get_set_ne jwk "kid" k "alg" (by decide)
    | none => exact get_set_ne jwk "kid" fresh "alg" (by decide)

theorem normalizeKey_kid (jwk : JWK) (optsKid : Option String) (fresh : String) :
    (normalizeKey jwk optsKid fresh).kid
      = match jwk.kid, optsKid with
        | some k0, _ => some k0
        | none, some k => some k
        | none, none => some fresh := by
  cases hk : jwk.kid with
  | some k0 =>
    have : normalizeKey jwk optsKid fresh = jwk := by
      unfold normalizeKey
      rw [if_pos (by simp [hk])]
    rw [this, hk]
  | none =>
    cases optsKid with
    | some k =>
      have : normalizeKey jwk (some k) fresh = jwk.set "kid" k := by
        unfold normalizeKey
        rw [if_neg (by simp [hk])]
      rw [this]
      exact get_set_self jwk "kid" k
    | none =>
      have : normalizeKey jwk none fresh = jwk.set "kid" fresh := by
        unfold normalizeKey
        rw [if_neg (by simp [hk])]
      rw [this]
      exact get_set_self jwk "kid" fresh

theorem hexEncode_length (bytes : List Nat) :
    (hexEncode bytes).length = 2 * bytes.length := by
  unfold hexEncode
  rw [String.length_mk]
  induction bytes with
  | nil => rfl
  | cons b bs ih =>
    rw [List.flatMap_cons, List.length_append, ih]
    simp [Nat.mul_succ, Nat.add_comm]

/-! ## Store-level add and generate -/

theorem JWKStore.add_eq (keys : List JWK) (jwk : JWK) (fresh : String)
    (parsed : Except String ParsedKey) :
    JWKStore.add keys jwk fresh parsed =
      match jwk.alg with
      | none => (.error .unspecifiedAlg, keys)
      | some a =>
        if supportedAlgs.contains a then
          match parsed with
          | .error msg => (.error (.external msg), keys)
          | .ok pk =>
            if pk.isKeyObject && pk.keyType == "private" then
              (.ok (normalizeKey jwk none fresh),
                KeyRotator.add keys (normalizeKey jwk none fresh))
            else (.error .invalidKeyType, keys)
        else (.error (.unsupportedAlg a), keys) := by
  simp only [JWKStore.add, normalizeKey_alg]

/-- C7: addExternal error contract — the call fails with the unspecified-alg
error exactly when the input lacks an alg field; with the unsupported-alg
error exactly when the alg is present but outside the supported set; with the
invalid-key-type error exactly when those checks pass and the handle the
external parser returned is not a private KeyObject; and every failure leaves
the key list unchanged. -/
theorem addExternal_error_contract (keys : List JWK) (jwk : JWK) (fresh : String)
    (parsed : Except String ParsedKey) :
    ((JWKStore.add keys jwk fresh parsed).1 = .error .unspecifiedAlg ↔ jwk.alg = none)
    ∧ (∀ a, (JWKStore.add keys jwk fresh parsed).1 = .error (.unsupportedAlg a)
        ↔ jwk.alg = some a ∧ a ∉ supportedAlgs)
    ∧ ((JWKStore.add keys jwk fresh parsed).1 = .error .invalidKeyType
        ↔ ∃ a pk, jwk.alg = some a ∧ a ∈ supportedAlgs ∧ parsed = .ok pk
            ∧ ¬(pk.isKeyObject = true ∧ pk.keyType = "private"))
    ∧ (∀ e, (JWKStore.add keys jwk fresh parsed).1 = .error e
        → (JWKStore.add keys jwk fresh parsed).2 = keys) := by
  rw [JWKStore.add_eq]
  cases ha : jwk.alg with
  | none => simp
  | some a =>
    dsimp only
    by_cases hsup : supportedAlgs.contains a
    · have hsup' : a ∈ supportedAlgs := by simpa using hsup
      rw [if_pos hsup]
      cases hp : parsed with
      | error msg =>
        refine ⟨by simp, ?_, by simp, fun e _ => rfl⟩
        intro a'
        refine iff_of_false (by simp) ?_
        rintro ⟨h1, h2⟩
        obtain rfl : a = a' := Option.some.inj h1
        exact h2 hsup'
      | ok pk =>
        dsimp only
        by_cases hpk : pk.isKeyObject && pk.keyType == "private"
        · rw [if_pos hpk]
          have hpk' : pk.isKeyObject = true ∧ pk.keyType = "private" := by
            simpa using hpk
          refine ⟨by simp, ?_, ?_, by simp⟩
          · intro a'
            refine iff_of_false (by simp) ?_
            rintro ⟨h1, h2⟩
            obtain rfl : a = a' := Option.some.inj h1
            exact h2 hsup'
          · refine iff_of_false (by simp) ?_
            rintro ⟨a', pk', _, _, h3, h4⟩
            obtain rfl : pk = pk' := Except.ok.inj h3
            exact h4 hpk'
        · rw [if_neg hpk]
          have hpk' : ¬(pk.isKeyObject = true ∧ pk.keyType = "private") := by
            simpa using hpk
          refine ⟨by simp, ?_, ?_, fun e _ => rfl⟩
          · intro a'
            refine iff_of_false (by simp) ?_
            rintro ⟨h1, h2⟩
            obtain rfl : a = a' := Option.some.inj h1
            exact h2 hsup'
          · exact iff_of_true rfl ⟨a, pk, rfl, hsup', rfl, hpk'⟩
    · have hsup' : a ∉ supportedAlgs := by simpa using hsup
      rw [if_neg hsup]
      refine ⟨by simp, ?_, ?_, fun e _ => rfl⟩
      · intro a'
        constructor
        · intro he
          obtain rfl : a = a' := by simpa using he
          exact ⟨rfl, hsup'⟩
        · rintro ⟨h1, _⟩
          obtain rfl : a = a' := Option.some.inj h1
          rfl
      · refine iff_of_false (by simp) ?_
        rintro ⟨a', pk', h1, h2, _, _⟩
        obtain rfl : a = a' := Option.some.inj h1
        exact hsup' h2

theorem addExternal_error_contract_witness :
    (JWKStore.add [] ⟨[("kty", "RSA")]⟩ "ff" (.ok ⟨true, "private"⟩)).1
      = .error .unspecifiedAlg :=
  ((addExternal_error_contract [] ⟨[("kty", "RSA")]⟩ "ff"
    (.ok ⟨true, "private"⟩)).1).mpr (by decide)

/-- C5 counterexample: generate performs no membership check on the requested
algorithm — when the external generator call succeeds for the unsupported
algorithm HS256, the store inserts a record tagged alg HS256 into the
rotator, so not every entry path rejects unsupported algorithms. -/
theorem generate_no_alg_validation_cex :
    (JWKStore.generate [] "HS256" none (some ⟨[("kty", "oct"), ("k", "s")]⟩) "cafe").map
        (fun r => r.2.map JWK.alg)
      = some [some "HS256"]
    ∧ "HS256" ∉ supportedAlgs := by
  constructor
  · rfl
  · decide

/-- C5 (amended): algorithm validation holds on the addExternal path — every
record it successfully inserts carries an alg in the supported set — but the
generate path performs no membership validation: whenever the external
generator succeeds, the record is inserted bearing the requested algorithm,
supported or not (the code relies on the generator itself failing for
algorithms it cannot generate). -/
theorem alg_validation_amended (keys : List JWK) (jwk : JWK) (fresh : String)
    (parsed : Except String ParsedKey) (alg : String) (optsKid : Option String)
    (gen : Option JWK) :
    (∀ jwk' keys', JWKStore.add keys jwk fresh parsed = (.ok jwk', keys')
      → ∃ a, jwk'.alg = some a ∧ a ∈ supportedAlgs)
    ∧ (∀ jwk' keys', JWKStore.generate keys alg optsKid gen fresh = some (jwk', keys')
      → jwk'.alg = some alg ∧ keys' = KeyRotator.add keys jwk') := by
  constructor
  · intro jwk' keys' h
    rw [JWKStore.add_eq] at h
    cases ha : jwk.alg with
    | none => rw [ha] at h; cases h
    | some a =>
      rw [ha] at h
      dsimp only at h
      by_cases hsup : supportedAlgs.contains a
      · rw [if_pos hsup] at h
        cases hp : parsed with
        | error msg => rw [hp] at h; cases h
        | ok pk =>
          rw [hp] at h
          dsimp only at h
          by_cases hpk : pk.isKeyObject && pk.keyType == "private"
          · rw [if_pos hpk] at h
            obtain ⟨h1, h2⟩ := Prod.mk.injEq .. ▸ h
            have hj : jwk' = normalizeKey jwk none fresh := by
              exact (Except.ok.inj h1).symm
            refine ⟨a, ?_, by simpa using hsup⟩
            rw [hj, normalizeKey_alg, ha]
          · rw [if_neg hpk] at h; cases h
      · rw [if_neg hsup] at h; cases h
  · intro jwk' keys' h
    cases gen with
    | none => cases h
    | some jwk0 =>
      simp only [JWKStore.generate] at h
      obtain ⟨h1, h2⟩ := Prod.mk.injEq .. ▸ Option.some.inj h
      constructor
      · rw [← h1, normalizeKey_alg]
        exact get_set_self jwk0 "alg" alg
      · rw [← h2, ← h1]

theorem alg_validation_amended_witness :
    JWK.alg ⟨[("kty", "oct"), ("alg", "RS256"), ("kid", "ff")]⟩ = some "RS256"
    ∧ [⟨[("kty", "oct"), ("alg", "RS256"), ("kid", "ff")]⟩]
        = KeyRotator.add [] ⟨[("kty", "oct"), ("alg", "RS256"), ("kid", "ff")]⟩ :=
  (alg_validation_amended [] ⟨[]⟩ "ff" (.ok ⟨true, "private"⟩) "RS256" none
    (some ⟨[("kty", "oct")]⟩)).2 ⟨[("kty", "oct"), ("alg", "RS256"), ("kid", "ff")]⟩
    [⟨[("kty", "oct"), ("alg", "RS256"), ("kid", "ff")]⟩] (by rfl)

/-- C6 counterexample: the store accepts a caller-supplied empty kid — adding
an otherwise valid RS256 key whose kid field is the empty string succeeds and
stores a record whose kid is the empty string, so no non-emptiness validation
of a caller-supplied kid takes place. -/
theorem empty_kid_accepted_cex :
    JWKStore.add [] ⟨[("kid", ""), ("alg", "RS256")]⟩ "ff" (.ok ⟨true, "private"⟩)
      = (.ok ⟨[("kid", ""), ("alg", "RS256")]⟩, [⟨[("kid", ""), ("alg", "RS256")]⟩])
    ∧ JWK.kid ⟨[("kid", ""), ("alg", "RS256")]⟩ = some "" := by
  constructor
  · rfl
  · rfl

/-- C6 (amended): every record that enters the store has a defined kid: when
the caller supplies none, the assigned identifier is the hex encoding of the
40 random bytes drawn from the crypto source — 80 characters, hence
non-empty.  A caller-supplied kid is used as is, without any non-emptiness
validation. -/
theorem kid_assignment_amended (bytes : List Nat) (jwk : JWK)
    (optsKid : Option String) (h : bytes.length = 40) :
    (generateRandomKid bytes).length = 80
    ∧ generateRandomKid bytes ≠ ""
    ∧ (normalizeKey jwk optsKid (generateRandomKid bytes)).kid ≠ none
    ∧ (jwk.kid = none → optsKid = none →
        (normalizeKey jwk optsKid (generateRandomKid bytes)).kid
          = some (generateRandomKid bytes)) := by
  have hlen : (generateRandomKid bytes).length = 80 := by
    unfold generateRandomKid
    rw [hexEncode_length, h]
  refine ⟨hlen, ?_, ?_, ?_⟩
  · intro hc
    rw [hc] at hlen
    simp at hlen
  · rw [normalizeKey_kid]
    cases jwk.kid <;> cases optsKid <;> simp
  · intro h1 h2
    rw [normalizeKey_kid, h1, h2]

theorem kid_assignment_amended_witness :
    (normalizeKey ⟨[("alg", "RS256")]⟩ none
        (generateRandomKid (List.replicate 40 0))).kid ≠ none :=
  (kid_assignment_amended (List.replicate 40 0) ⟨[("alg", "RS256")]⟩ none
    (by decide)).2.2.1
